import Mathlib

/-!
Verification of the feed-allocation and merge/dedup/rank pipeline of
`src/rss/fetch_rss.py`.  Pure functions of the script are embedded as Lean
functions; Python dictionaries (which preserve insertion order and replace
values in place on key collision) are embedded as association lists with the
same update discipline.  Machine arithmetic notes are recorded on each
definition.
-/

namespace RssFetch

/-- The canonical article record built by `fetch_and_process_feed`
(src/rss/fetch_rss.py, lines 222-232).  `timestamp` is
`int(dt_object.timestamp())`: signed epoch seconds, negative for dates
before 1970. -/
structure Entry where
  id : String
  blog_name : String
  title : String
  link : String
  published : String
  timestamp : Int
  summary : String
  content : String
  author : String
  tags : List String
  category : String
  source_icon : String
  source_color : String
  deriving DecidableEq, Repr, Inhabited

/-- One entry of the `RSS_FEEDS` configuration table (lines 38-76).  Keys
that a concrete feed omits (`content_selector`) are carried as `""`. -/
structure FeedConfig where
  name : String
  url : String
  category : String
  icon : String
  color : String
  description : String
  fetch_full_content : Bool
  content_selector : String
  sanitize_summary : Bool
  deriving DecidableEq, Repr

/-- One entry of the `CATEGORIES` configuration table (lines 23-27). -/
structure CategoryConfig where
  name : String
  icon : String
  color : String
  deriving DecidableEq, Repr

/-- `CATEGORIES` (lines 23-27). -/
def CATEGORIES : List CategoryConfig :=
  [⟨"技术", "💻", "#4A90E2"⟩,
   ⟨"工作", "🏢", "#50C878"⟩,
   ⟨"资讯", "🌐", "#FF6B6B"⟩]

/-- `RSS_FEEDS` (lines 38-76), in the source's insertion order. -/
def RSS_FEEDS : List FeedConfig :=
  [⟨"美团技术团队", "https://tech.meituan.com/feed/", "技术", "🚀", "#FFD93D",
    "美团技术团队博客", true, "div.post-content", false⟩,
   ⟨"潮流周刊", "https://weekly.tw93.fun/rss.xml", "资讯", "📰", "#FCA5A5",
    "前端潮流技术周刊", false, "", true⟩,
   ⟨"V2EX技术专区", "https://www.v2ex.com/feed/tab/tech.xml", "技术", "🔧", "#A5B4FC",
    "V2EX技术讨论区", false, "", true⟩,
   ⟨"V2EX酷工作", "https://www.v2ex.com/feed/tab/jobs.xml", "工作", "💼", "#A7F3D0",
    "V2EX招聘信息", false, "", true⟩]

/-- `RSS_WEIGHTS` (line 101), in the source's insertion order. -/
def RSS_WEIGHTS : List (String × Nat) :=
  [("V2EX技术专区", 3), ("美团技术团队", 3), ("V2EX酷工作", 2), ("潮流周刊", 2)]

/-- `MAX_ENTRIES_LIMIT` (line 79). -/
def MAX_ENTRIES_LIMIT : Nat := 200

/-- `list(RSS_FEEDS.keys())`. -/
def feedNames : List String := RSS_FEEDS.map (·.name)

/-- `sum(allocation.values())` on an allocation dictionary. -/
def sumAlloc (a : List (String × Nat)) : Nat := (a.map Prod.snd).sum

/-- `allocation.get(name, 0)` on an allocation dictionary. -/
def quotaOf (a : List (String × Nat)) (name : String) : Nat := (a.lookup name).getD 0

/-- `allocation[key] += 1` on an allocation dictionary: the pair keyed `key`
keeps its position and its value grows by one. -/
def bumpAlloc (key : String) (a : List (String × Nat)) : List (String × Nat) :=
  a.map (fun p => if p.1 = key then (p.1, p.2 + 1) else p)

/-- `calculate_equal_allocation` (lines 241-245).  The Python body divides by
the `feed_count` argument but builds the dictionary over the configured feed
names (`RSS_FEEDS.keys()`), passed here as `feeds`; both call sites pass
`len(RSS_FEEDS)` for `feed_count`. -/
def calculate_equal_allocation (feeds : List String) (feed_count total_limit : Nat) :
    List (String × Nat) :=
  if feed_count = 0 then []
  else
    let base := total_limit / feed_count
    let rem := total_limit % feed_count
    feeds.enum.map (fun p => (p.2, base + if p.1 < rem then 1 else 0))

/-- `RSS_WEIGHTS.get(name, 1)`. -/
def weightOf (weights : List (String × Nat)) (name : String) : Nat :=
  (weights.lookup name).getD 1

/-- `sum(RSS_WEIGHTS.values())`. -/
def totalWeight (weights : List (String × Nat)) : Nat := (weights.map Prod.snd).sum

/-- `calculate_weighted_allocation` (lines 247-255).  Python computes
`int(total_limit * (weight / total_weight))` with float division; the exact
value of that expression is the floor of the rational
`total_limit * weight / total_weight`, written here with natural division.
The correction loop `for i in range(diff)` bumps `keys[i % len(RSS_FEEDS)]`;
`range` of a non-positive number is empty, which truncated subtraction
reproduces. -/
def calculate_weighted_allocation (feeds : List String) (weights : List (String × Nat))
    (total_limit : Nat) : List (String × Nat) :=
  let total_weight := totalWeight weights
  if total_weight = 0 then calculate_equal_allocation feeds feeds.length total_limit
  else
    let allocation := feeds.map (fun name =>
      (name, total_limit * weightOf weights name / total_weight))
    let diff := total_limit - sumAlloc allocation
    (List.range diff).foldl
      (fun acc i => bumpAlloc (feeds.getD (i % feeds.length) "") acc) allocation

/-- The per-source counting loop shared verbatim by
`calculate_dynamic_allocation` (lines 258-260) and the metadata block
(lines 335-338): a zero-initialised dictionary over `names`, incremented for
every entry whose `blog_name` is a key. -/
def countByName (names : List String) (entries : List Entry) : List (String × Nat) :=
  entries.foldl
    (fun acc e => if (acc.lookup e.blog_name).isSome then bumpAlloc e.blog_name acc else acc)
    (names.map (fun n => (n, 0)))

/-- `max(ratios, key=ratios.get)` (line 272): the first key attaining the
maximal value, since Python's `max` only replaces its candidate on a strict
increase. -/
def argmaxKey : List (String × ℚ) → String
  | [] => ""
  | x :: xs => (xs.foldl (fun b p => if b.2 < p.2 then p else b) x).1

/-- Python `int()` truncates toward zero; on the non-negative rationals the
allocation code feeds it, this is the floor: `num.toNat / den` on the
normalised representation. -/
def ratToNatFloor (q : ℚ) : Nat := q.num.toNat / q.den

/-- The `while current_total < total_limit` loop of
`calculate_dynamic_allocation` (lines 269-274).  Each iteration adds exactly
one unit, so the loop runs exactly `total_limit - current_total` times; the
recursion is phrased on that count, with `ratios` unchanged across
iterations exactly as in the source. -/
def dynLoopFuel (ratios : List (String × ℚ)) :
    List (String × Nat) → Nat → List (String × Nat)
  | alloc, 0 => alloc
  | alloc, n + 1 => dynLoopFuel ratios (bumpAlloc (argmaxKey ratios) alloc) n

/-- `calculate_dynamic_allocation` (lines 257-275).  Float ratios
`count / total` and `int(ratio * total_limit)` are embedded as exact
rationals with truncation toward zero. -/
def calculate_dynamic_allocation (feeds : List String) (existing_entries : List Entry)
    (total_limit : Nat) : List (String × Nat) :=
  let counts := countByName feeds existing_entries
  let total := sumAlloc counts
  if total = 0 then calculate_equal_allocation feeds feeds.length total_limit
  else
    let ratios := counts.map (fun p => (p.1, (p.2 : ℚ) / (total : ℚ)))
    let allocation := ratios.map (fun p => (p.1, max 1 (ratToNatFloor (p.2 * total_limit))))
    dynLoopFuel ratios allocation (total_limit - sumAlloc allocation)

/-- `get_allocation_strategy` (lines 277-281); unknown strategies fall back
to dynamic. -/
def get_allocation_strategy (feeds : List String) (weights : List (String × Nat))
    (existing_entries : List Entry) (strategy : String) : List (String × Nat) :=
  if strategy = "equal" then calculate_equal_allocation feeds feeds.length MAX_ENTRIES_LIMIT
  else if strategy = "weighted" then calculate_weighted_allocation feeds weights MAX_ENTRIES_LIMIT
  else calculate_dynamic_allocation feeds existing_entries MAX_ENTRIES_LIMIT

/-- One Python-dict assignment `combined_entries[e.link] = e` (lines 321-326):
an existing key keeps its position and takes the new record wholesale, a new
key is appended at the end. -/
def dictInsert (acc : List Entry) (e : Entry) : List Entry :=
  if acc.any (fun x => x.link == e.link) then
    acc.map (fun x => if x.link = e.link then e else x)
  else acc ++ [e]

/-- Lines 321-326: the merged dictionary keyed by `link`, seeded with all
historical entries, then overlaid with the fetched entries; its value list in
insertion order. -/
def combinedEntries (existing allNew : List Entry) : List Entry :=
  allNew.foldl dictInsert (existing.foldl dictInsert [])

/-- The sort relation of line 329: `key=lambda x: x.get('timestamp', 0),
reverse=True`; every modeled entry carries its `timestamp` field. -/
def byRecency (a b : Entry) : Prop := b.timestamp ≤ a.timestamp

instance : DecidableRel byRecency :=
  fun a b => inferInstanceAs (Decidable (b.timestamp ≤ a.timestamp))

instance : IsTotal Entry byRecency := ⟨fun a b => Int.le_total b.timestamp a.timestamp⟩

instance : IsTrans Entry byRecency := ⟨fun _ _ _ hab hbc => le_trans hbc hab⟩

/-- Line 329: sort the merged values by descending timestamp and truncate to
the capacity.  Python's `sorted` is a stable sort; it is modeled by the
stable insertion sort. -/
def finalEntries (existing allNew : List Entry) (capacity : Nat) : List Entry :=
  (List.insertionSort byRecency (combinedEntries existing allNew)).take capacity

/-- The per-source block stored under a category in `categories_meta`
(lines 344-347). -/
structure SourceMeta where
  icon : String
  color : String
  description : String
  count : Nat
  deriving DecidableEq, Repr

/-- One value of the `categories_meta` dictionary (lines 333-334). -/
structure CategoryMeta where
  icon : String
  color : String
  count : Nat
  sources : List (String × SourceMeta)
  deriving DecidableEq, Repr

/-- Lines 333-334: `categories_meta` initialised with one record per
configured category, zero count and an empty source dictionary. -/
def initCategoriesMeta (cats : List CategoryConfig) : List (String × CategoryMeta) :=
  cats.map (fun c => (c.name, ⟨c.icon, c.color, 0, []⟩))

/-- The body of the `for src_name, src_config in RSS_FEEDS.items()` loop
(lines 340-348): when the source's category is a key of `categories_meta`,
record the source under it and add the source's count to the category
count; otherwise leave the dictionary unchanged. -/
def addSourceMeta (f : FeedConfig) (count : Nat) (meta : List (String × CategoryMeta)) :
    List (String × CategoryMeta) :=
  meta.map (fun p =>
    if p.1 = f.category then
      (p.1, ⟨p.2.icon, p.2.color, p.2.count + count,
             p.2.sources ++ [(f.name, ⟨f.icon, f.color, f.description, count⟩)]⟩)
    else p)

/-- The metadata block of `main` (lines 333-348): per-source counts over the
final entry list, folded into per-category records. -/
def categoriesMeta (cats : List CategoryConfig) (feeds : List FeedConfig)
    (finalList : List Entry) : List (String × CategoryMeta) :=
  let source_counts := countByName (feeds.map (·.name)) finalList
  feeds.foldl (fun meta f => addSourceMeta f (quotaOf source_counts f.name) meta)
    (initCategoriesMeta cats)

/-- The whitespace set of Python's `str.strip()` (restricted to ASCII, the
only characters the proofs below touch). -/
def pySpace (c : Char) : Bool :=
  c == ' ' || c == '\t' || c == '\n' || c == '\x0d' || c == '\x0b' || c == '\x0c'

/-- `str.strip()`: drop whitespace from both ends. -/
def pyStrip (l : List Char) : List Char :=
  ((l.dropWhile pySpace).reverse.dropWhile pySpace).reverse

/-- `re.sub(r'<[^>]+>', '', s)` (line 212).  `re.sub` replaces the leftmost
non-overlapping matches: at a `'<'`, the pattern consumes one or more
non-`'>'` characters up to the next `'>'`; with no intervening character or
no closing `'>'` there is no match at this position and scanning resumes at
the next character. -/
def stripTags (cs : List Char) : List Char :=
  match cs with
  | [] => []
  | c :: rest =>
    if c = '<' then
      let pre := rest.takeWhile (fun d => d != '>')
      if pre.length = 0 then c :: stripTags rest
      else if pre.length = rest.length then c :: rest
      else stripTags (rest.drop (pre.length + 1))
    else c :: stripTags rest
termination_by cs.length
decreasing_by all_goals simp_wf <;> omega

/-- The summary branch of `fetch_and_process_feed` (lines 208-216).  The
HTML-sanitising collaborator (`bleach.clean`, external to the core) is a
parameter; with `sanitize_summary` unset the raw summary is tag-stripped,
trimmed and cut to 200 characters, with it set the sanitised HTML is kept
as-is. -/
def summaryOf (sanitizeHtml : String → String) (sanitize_summary : Bool)
    (summary_html : String) : String :=
  if sanitize_summary then sanitizeHtml summary_html
  else String.mk ((pyStrip (stripTags summary_html.data)).take 200)

/-- The final write of `main` (lines 361-374): `open(output_path, "w")`
truncates the target file to empty before `json.dump` streams the serialised
payload chunk by chunk; an `IOError` may interrupt the stream after any
number of chunks and is caught and reported (success flag `false`).  File
contents are modeled as character lists; the first argument is the prior
snapshot's contents, which the truncating open discards. -/
def writeSnapshot (oldFile : List Char) (chunks : List (List Char))
    (interrupt : Option Nat) : List Char × Bool :=
  match oldFile, interrupt with
  | _, none => (chunks.foldl (fun f c => f ++ c) [], true)
  | _, some k => ((chunks.take k).foldl (fun f c => f ++ c) [], false)

/-- `calculate_weighted_allocation` as claim C4 words it: floor shares for
every source, except that the last source in configuration order absorbs the
residual `capacity - sum of the prior allocations`.  Stated from the claim's
words only, to be compared with the source's definition. -/
def weightedAllocationClaim (feeds : List String) (weights : List (String × Nat))
    (total_limit : Nat) : List (String × Nat) :=
  let total_weight := totalWeight weights
  if total_weight = 0 then calculate_equal_allocation feeds feeds.length total_limit
  else
    let shares := feeds.map (fun name =>
      (name, total_limit * weightOf weights name / total_weight))
    match shares.getLast? with
    | none => []
    | some lastShare =>
        shares.dropLast ++ [(lastShare.1, total_limit - sumAlloc shares.dropLast)]

/-- `calculate_dynamic_allocation` as claim C5 words it: ratio
`max(historical_count / total_historical, 0.1)`, share `floor(ratio ×
capacity)`, the last source in configuration order absorbing the residual.
Stated from the claim's words only, to be compared with the source's
definition. -/
def dynamicAllocationClaim (feeds : List String) (existing_entries : List Entry)
    (total_limit : Nat) : List (String × Nat) :=
  let counts := countByName feeds existing_entries
  let total := sumAlloc counts
  if total = 0 then calculate_equal_allocation feeds feeds.length total_limit
  else
    let ratios := counts.map (fun p => (p.1, max ((p.2 : ℚ) / (total : ℚ)) (1 / 10)))
    let shares := ratios.map (fun p => (p.1, ratToNatFloor (p.2 * total_limit)))
    match shares.getLast? with
    | none => []
    | some lastShare =>
        shares.dropLast ++ [(lastShare.1, total_limit - sumAlloc shares.dropLast)]

/-- A minimal entry record used by concrete witnesses and counterexamples:
only the fields the core pipeline reads are non-trivial. -/
def sampleEntry (blog link : String) (ts : Int) : Entry :=
  ⟨"", blog, "", link, "", ts, "", "", "", [], "", "", ""⟩

/-- The record stored under key `k` of a link-keyed entry dictionary: the
first (and, links being unique, only) element with that link. -/
def findByLink (l : List Entry) (k : String) : Option Entry :=
  l.find? (fun x => x.link == k)

/-! ## Helper lemmas on allocation dictionaries -/

theorem lookup_map_pair (l : List String) (f : String → α) (k : String) :
    (l.map (fun n => (n, f n))).lookup k = if k ∈ l then some (f k) else none := by
  induction l with
  | nil => simp
  | cons a t ih =>
      by_cases h : k = a
      · subst h
        have hb : (k == k) = true := by simp
        simp [List.lookup, hb]
      · have hb : (k == a) = false := by simp [h]
        by_cases ht : k ∈ t
        · simp [List.lookup, hb, ih, ht, h]
        · simp [List.lookup, hb, ih, ht, h]

theorem lookup_map_pair_snd (l : List (String × β)) (f : String × β → γ) (k : String) :
    (l.map (fun p => (p.1, f p))).lookup k = (l.lookup k).map (fun v => f (k, v)) := by
  induction l with
  | nil => simp
  | cons a t ih =>
      by_cases h : k = a.1
      · have hb : (k == a.1) = true := by simp [h]
        have ha : a = (k, a.2) := by
          rw [h]
        simp [List.lookup, hb]
        rw [ha]
      · have hb : (k == a.1) = false := by simp [h]
        simp [List.lookup, hb, ih]

theorem lookup_bumpAlloc (key : String) (a : List (String × Nat)) (k : String) :
    (bumpAlloc key a).lookup k =
      if k = key then (a.lookup k).map (fun v => v + 1) else a.lookup k := by
  induction a with
  | nil => simp [bumpAlloc]
  | cons p t ih =>
      have hstep : bumpAlloc key (p :: t) =
          (if p.1 = key then (p.1, p.2 + 1) else p) :: bumpAlloc key t := by
        simp [bumpAlloc]
      rw [hstep]
      by_cases hk : k = p.1
      · have hb : (k == p.1) = true := by simp [hk]
        by_cases hp : p.1 = key
        · have hkey : k = key := hk.trans hp
          rw [if_pos hp, if_pos hkey]
          simp only [List.lookup, hb]
          simp
        · have hknotkey : ¬ k = key := fun h => hp (hk.symm.trans h)
          rw [if_neg hp, if_neg hknotkey]
          simp only [List.lookup, hb]
      · have hb : (k == p.1) = false := by simp [hk]
        by_cases hp : p.1 = key
        · rw [if_pos hp]
          simp only [List.lookup, hb]
          exact ih
        · rw [if_neg hp]
          simp only [List.lookup, hb]
          exact ih

theorem keys_bumpAlloc (key : String) (a : List (String × Nat)) :
    (bumpAlloc key a).map Prod.fst = a.map Prod.fst := by
  simp only [bumpAlloc, List.map_map]
  refine List.map_congr_left ?_
  intro p _
  by_cases h : p.1 = key <;> simp [h]

theorem bumpAlloc_not_mem (key : String) (a : List (String × Nat))
    (h : key ∉ a.map Prod.fst) : bumpAlloc key a = a := by
  unfold bumpAlloc
  conv_rhs => rw [← List.map_id a]
  refine List.map_congr_left ?_
  intro p hp
  have hne : p.1 ≠ key := fun hep => h (hep ▸ List.mem_map_of_mem Prod.fst hp)
  simp [hne]

theorem sumAlloc_bumpAlloc_mem (key : String) (a : List (String × Nat))
    (hnd : (a.map Prod.fst).Nodup) (hk : key ∈ a.map Prod.fst) :
    sumAlloc (bumpAlloc key a) = sumAlloc a + 1 := by
  induction a with
  | nil => simp at hk
  | cons p t ih =>
      simp only [List.map_cons, List.nodup_cons, List.mem_cons] at hnd hk
      by_cases hp : p.1 = key
      · have hkt : key ∉ t.map Prod.fst := hp ▸ hnd.1
        have ht : bumpAlloc key t = t := bumpAlloc_not_mem key t hkt
        show sumAlloc ((p :: t).map (fun q => if q.1 = key then (q.1, q.2 + 1) else q)) = _
        rw [List.map_cons, if_pos hp]
        rw [show t.map (fun q => if q.1 = key then (q.1, q.2 + 1) else q) = t from ht]
        simp only [sumAlloc, List.map_cons, List.sum_cons]
        omega
      · have hkm : key ∈ t.map Prod.fst := by
          rcases hk with h | h
          · exact absurd h.symm hp
          · exact h
        have hrec := ih hnd.2 hkm
        show sumAlloc ((p :: t).map (fun q => if q.1 = key then (q.1, q.2 + 1) else q)) = _
        rw [List.map_cons, if_neg hp]
        simp only [bumpAlloc] at hrec
        simp only [sumAlloc, List.map_cons, List.sum_cons] at hrec ⊢
        omega

theorem lookup_mem_keys (a : List (String × Nat)) (k : String)
    (h : k ∈ a.map Prod.fst) : ∃ v, a.lookup k = some v := by
  induction a with
  | nil => simp at h
  | cons p t ih =>
      simp only [List.map_cons, List.mem_cons] at h
      by_cases hp : p.1 = k
      · exact ⟨p.2, by simp [List.lookup, hp]⟩
      · rcases h with h | h
        · exact absurd h.symm hp
        · obtain ⟨v, hv⟩ := ih h
          have hne : ¬ k = p.1 := fun hh => hp hh.symm
          have hb : (k == p.1) = false := by simp [hne]
          exact ⟨v, by simp [List.lookup, hb, hv]⟩

theorem sumAlloc_map_pairs (l : List α) (f : α → String) (g : α → Nat) :
    sumAlloc (l.map (fun x => (f x, g x))) = (l.map g).sum := by
  simp only [sumAlloc, List.map_map]
  exact congrArg List.sum (List.map_congr_left fun a _ => rfl)

theorem keys_map_pair (l : List String) (g : String → Nat) :
    ((l.map (fun n => (n, g n))).map Prod.fst) = l := by
  simp only [List.map_map]
  exact (List.map_congr_left fun a _ => rfl).trans (List.map_id l)

theorem sum_base_ite (n rem base : Nat) :
    ((List.range n).map (fun i => base + if i < rem then 1 else 0)).sum
      = n * base + min rem n := by
  induction n with
  | zero => simp
  | succ m ih =>
      rw [List.range_succ, List.map_append, List.sum_append, ih, Nat.succ_mul]
      by_cases h : m < rem
      · simp only [List.map_cons, List.map_nil, List.sum_cons, List.sum_nil, if_pos h]
        omega
      · simp only [List.map_cons, List.map_nil, List.sum_cons, List.sum_nil, if_neg h]
        omega

theorem sumAlloc_equal (feeds : List String) (total_limit : Nat) (hne : feeds ≠ []) :
    sumAlloc (calculate_equal_allocation feeds feeds.length total_limit) = total_limit := by
  have hn : feeds.length ≠ 0 := fun h => hne (List.length_eq_zero.mp h)
  have hpos : 0 < feeds.length := Nat.pos_of_ne_zero hn
  simp only [calculate_equal_allocation, if_neg hn]
  rw [sumAlloc_map_pairs]
  have hcomp : feeds.enum.map
        (fun p => total_limit / feeds.length + if p.1 < total_limit % feeds.length then 1 else 0)
      = (feeds.enum.map Prod.fst).map
        (fun i => total_limit / feeds.length + if i < total_limit % feeds.length then 1 else 0) := by
    rw [List.map_map]
    exact List.map_congr_left fun p _ => rfl
  rw [hcomp, List.enum_map_fst, sum_base_ite]
  have hmod : total_limit % feeds.length < feeds.length := Nat.mod_lt _ hpos
  rw [min_eq_left hmod.le]
  exact Nat.div_add_mod total_limit feeds.length

theorem nat_add_div_le (a b c : Nat) : a / c + b / c ≤ (a + b) / c := by
  rcases Nat.eq_zero_or_pos c with hc | hc
  · subst hc; simp
  · rw [Nat.le_div_iff_mul_le hc, Nat.add_mul]
    exact Nat.add_le_add (Nat.div_mul_le_self a c) (Nat.div_mul_le_self b c)

theorem sum_div_le (l : List Nat) (c : Nat) : (l.map (· / c)).sum ≤ l.sum / c := by
  induction l with
  | nil => simp
  | cons a t ih =>
      simp only [List.map_cons, List.sum_cons]
      calc a / c + (t.map (· / c)).sum ≤ a / c + t.sum / c := Nat.add_le_add_left ih _
        _ ≤ (a + t.sum) / c := nat_add_div_le _ _ _

theorem keys_foldl_bump (ks : List String) (a : List (String × Nat)) :
    ((ks.foldl (fun acc k => bumpAlloc k acc) a).map Prod.fst) = a.map Prod.fst := by
  induction ks generalizing a with
  | nil => rfl
  | cons k t ih =>
      simp only [List.foldl_cons]
      rw [ih, keys_bumpAlloc]

theorem sumAlloc_foldl_bump (ks : List String) (a : List (String × Nat))
    (hnd : (a.map Prod.fst).Nodup) (hmem : ∀ k ∈ ks, k ∈ a.map Prod.fst) :
    sumAlloc (ks.foldl (fun acc k => bumpAlloc k acc) a) = sumAlloc a + ks.length := by
  induction ks generalizing a with
  | nil => simp
  | cons k t ih =>
      simp only [List.foldl_cons, List.length_cons]
      have h1 : (bumpAlloc k a).map Prod.fst = a.map Prod.fst := keys_bumpAlloc k a
      rw [ih (bumpAlloc k a) (h1 ▸ hnd)
            (fun k' hk' => h1 ▸ hmem k' (List.mem_cons_of_mem _ hk'))]
      rw [sumAlloc_bumpAlloc_mem k a hnd (hmem k (List.mem_cons_self _ _))]
      omega

theorem getD_mem_of_lt (l : List String) (i : Nat) (h : i < l.length) : l.getD i "" ∈ l := by
  rw [List.getD_eq_getElem l "" h]
  exact List.get_mem l i h

/-- C1: for the equal and weighted allocation strategies, for every capacity
and every non-empty configured source list (duplicate-free names, the weight
table consistent with the sources: the per-source weights sum to the table's
total), the returned quotas sum exactly to the requested capacity. -/
theorem c1_equal_weighted_sum_eq_capacity (feeds : List String)
    (weights : List (String × Nat)) (capacity : Nat)
    (hne : feeds ≠ []) (hnd : feeds.Nodup)
    (hcons : (feeds.map (weightOf weights)).sum = totalWeight weights) :
    sumAlloc (calculate_equal_allocation feeds feeds.length capacity) = capacity ∧
    sumAlloc (calculate_weighted_allocation feeds weights capacity) = capacity := by
  refine ⟨sumAlloc_equal feeds capacity hne, ?_⟩
  by_cases hW : totalWeight weights = 0
  · simp only [calculate_weighted_allocation, if_pos hW]
    exact sumAlloc_equal feeds capacity hne
  · have hWpos : 0 < totalWeight weights := Nat.pos_of_ne_zero hW
    have hpos : 0 < feeds.length := List.length_pos.mpr hne
    simp only [calculate_weighted_allocation, if_neg hW]
    set W := totalWeight weights with hWdef
    set alloc := feeds.map (fun name => (name, capacity * weightOf weights name / W))
      with halloc
    have hkeys : alloc.map Prod.fst = feeds := keys_map_pair _ _
    have hle : sumAlloc alloc ≤ capacity := by
      rw [halloc, sumAlloc_map_pairs]
      have h1 : feeds.map (fun name => capacity * weightOf weights name / W)
          = (feeds.map (fun name => capacity * weightOf weights name)).map (· / W) := by
        rw [List.map_map]
        exact List.map_congr_left fun a _ => rfl
      rw [h1]
      refine le_trans (sum_div_le _ _) ?_
      have h2 : (feeds.map (fun name => capacity * weightOf weights name)).sum
          = capacity * (feeds.map (weightOf weights)).sum := by
        rw [← List.sum_map_mul_left]
      rw [h2, hcons, Nat.mul_div_cancel _ hWpos]
    have hfold : (List.range (capacity - sumAlloc alloc)).foldl
          (fun acc i => bumpAlloc (feeds.getD (i % feeds.length) "") acc) alloc
        = ((List.range (capacity - sumAlloc alloc)).map
            (fun i => feeds.getD (i % feeds.length) "")).foldl
            (fun acc k => bumpAlloc k acc) alloc := by
      rw [List.foldl_map]
    rw [hfold]
    have hmem : ∀ k ∈ (List.range (capacity - sumAlloc alloc)).map
        (fun i => feeds.getD (i % feeds.length) ""), k ∈ alloc.map Prod.fst := by
      intro k hk
      rw [hkeys]
      simp only [List.mem_map, List.mem_range] at hk
      obtain ⟨i, _, rfl⟩ := hk
      exact getD_mem_of_lt feeds _ (Nat.mod_lt _ hpos)
    rw [sumAlloc_foldl_bump _ alloc (by rw [hkeys]; exact hnd) hmem]
    rw [List.length_map, List.length_range]
    omega

/-- C1 witness: the repository configuration (four feeds, weights 3/3/2/2)
at capacity 200; both strategies fill the capacity exactly. -/
theorem c1_equal_weighted_sum_eq_capacity_witness :
    (feedNames ≠ [] ∧ feedNames.Nodup ∧
      (feedNames.map (weightOf RSS_WEIGHTS)).sum = totalWeight RSS_WEIGHTS) ∧
    sumAlloc (calculate_equal_allocation feedNames feedNames.length 200) = 200 ∧
    sumAlloc (calculate_weighted_allocation feedNames RSS_WEIGHTS 200) = 200 :=
  ⟨⟨by decide, by decide, by decide⟩,
   c1_equal_weighted_sum_eq_capacity feedNames RSS_WEIGHTS 200
     (by decide) (by decide) (by decide)⟩

theorem lookup_roundrobin (feeds : List String) (hnd : feeds.Nodup)
    (a : List (String × Nat)) (d : Nat) (hd : d ≤ feeds.length)
    (j : Nat) (hj : j < feeds.length) :
    ((List.range d).foldl
        (fun acc i => bumpAlloc (feeds.getD (i % feeds.length) "") acc) a).lookup
      (feeds.get ⟨j, hj⟩)
    = (a.lookup (feeds.get ⟨j, hj⟩)).map (fun v => v + if j < d then 1 else 0) := by
  induction d with
  | zero =>
      simp only [List.range_zero, List.foldl_nil, Nat.not_lt_zero, if_neg (by omega : ¬ j < 0)]
      cases h : a.lookup (feeds.get ⟨j, hj⟩) <;> simp
  | succ m ih =>
      have hmlt : m < feeds.length := hd
      rw [List.range_succ, List.foldl_append]
      simp only [List.foldl_cons, List.foldl_nil]
      have hgd : feeds.getD (m % feeds.length) "" = feeds.get ⟨m, hmlt⟩ := by
        rw [Nat.mod_eq_of_lt hmlt]
        rw [List.getD_eq_getElem feeds "" hmlt]
        simp [List.get_eq_getElem]
      rw [hgd, lookup_bumpAlloc]
      by_cases hje : j = m
      · subst hje
        rw [if_pos rfl, ih (Nat.le_of_succ_le hd)]
        cases h : a.lookup (feeds.get ⟨j, hj⟩) <;>
          simp [Nat.lt_irrefl, Nat.lt_succ_self]
      · rw [if_neg ?_]
        · rw [ih (Nat.le_of_succ_le hd)]
          have hfun : (fun v => v + if j < m then 1 else 0)
              = (fun v => v + if j < m + 1 then 1 else 0) := by
            funext v
            have hiff : (j < m) ↔ (j < m + 1) := by omega
            simp [hiff]
          rw [hfun]
        · intro hcontra
          have hfin : (⟨j, hj⟩ : Fin feeds.length) = ⟨m, hmlt⟩ :=
            (List.Nodup.get_inj_iff hnd).mp hcontra
          exact hje (congrArg Fin.val hfin)

theorem sum_map_add_const (l : List α) (u : α → Nat) (c : Nat) :
    (l.map (fun x => u x + c)).sum = (l.map u).sum + l.length * c := by
  induction l with
  | nil => simp
  | cons a t ih =>
      simp only [List.map_cons, List.sum_cons, List.length_cons, ih]
      ring

theorem floors_sum_lt_add_length (feeds : List String) (weights : List (String × Nat))
    (capacity : Nat) (hne : feeds ≠ [])
    (hcons : (feeds.map (weightOf weights)).sum = totalWeight weights)
    (hW : 0 < totalWeight weights) :
    capacity
      < (feeds.map (fun name => capacity * weightOf weights name / totalWeight weights)).sum
        + feeds.length := by
  set W := totalWeight weights with hWdef
  have hA : 0 < feeds.length := List.length_pos.mpr hne
  have hpt : ∀ name, capacity * weightOf weights name
      ≤ W * (capacity * weightOf weights name / W) + (W - 1) := by
    intro name
    have hdm := Nat.div_add_mod (capacity * weightOf weights name) W
    have hmod : (capacity * weightOf weights name) % W < W := Nat.mod_lt _ hW
    omega
  have h1 : (feeds.map (fun name => capacity * weightOf weights name)).sum = capacity * W := by
    have := hcons
    calc (feeds.map (fun name => capacity * weightOf weights name)).sum
        = capacity * (feeds.map (weightOf weights)).sum := by rw [← List.sum_map_mul_left]
      _ = capacity * W := by rw [hcons]
  set S := (feeds.map (fun name => capacity * weightOf weights name / W)).sum with hS
  have h2 : (feeds.map
        (fun name => W * (capacity * weightOf weights name / W) + (W - 1))).sum
      = W * S + feeds.length * (W - 1) := by
    rw [sum_map_add_const]
    congr 1
    rw [hS, ← List.sum_map_mul_left]
  have hle : capacity * W ≤ W * S + feeds.length * (W - 1) := by
    rw [← h1, ← h2]
    exact List.sum_le_sum (fun name _ => hpt name)
  have h3 : feeds.length * (W - 1) < feeds.length * W :=
    mul_lt_mul_of_pos_left (by omega) hA
  have h4 : capacity * W < W * (S + feeds.length) := by
    calc capacity * W ≤ W * S + feeds.length * (W - 1) := hle
      _ < W * S + feeds.length * W := Nat.add_lt_add_left h3 _
      _ = W * (S + feeds.length) := by ring
  have h5 : W * capacity < W * (S + feeds.length) := by
    rw [Nat.mul_comm W capacity]
    exact h4
  exact lt_of_mul_lt_mul_left h5 (Nat.zero_le W)

/-- C4 counterexample: with the repository configuration at capacity 201
the code's weighted allocation is `美团 61, 潮流 40, V2EX技术 60, V2EX酷 40`
(the one-unit residual goes to the first source in configuration order),
while the claim's last-source-absorbs-the-residual rule demands
`60, 40, 60, 41`; the claim is false as stated. -/
theorem c4_counterexample :
    calculate_weighted_allocation feedNames RSS_WEIGHTS 201
      ≠ weightedAllocationClaim feedNames RSS_WEIGHTS 201 := by decide

/-- C4 amended: each source's quota is `floor(capacity × weight /
total_weight)`, and the residual `capacity - Σ floors` (always smaller than
the number of sources) is distributed one unit per source in configuration
order starting from the FIRST source — not absorbed by the last source —
so the total still equals the capacity exactly. -/
theorem c4_weighted_floor_plus_roundrobin (feeds : List String)
    (weights : List (String × Nat)) (capacity : Nat)
    (hne : feeds ≠ []) (hnd : feeds.Nodup)
    (hcons : (feeds.map (weightOf weights)).sum = totalWeight weights)
    (hW : 0 < totalWeight weights)
    (j : Nat) (hj : j < feeds.length) :
    quotaOf (calculate_weighted_allocation feeds weights capacity) (feeds.get ⟨j, hj⟩)
      = capacity * weightOf weights (feeds.get ⟨j, hj⟩) / totalWeight weights
        + (if j < capacity - (feeds.map
              (fun name => capacity * weightOf weights name / totalWeight weights)).sum
           then 1 else 0) := by
  have hWne : ¬ totalWeight weights = 0 := Nat.pos_iff_ne_zero.mp hW
  simp only [calculate_weighted_allocation, if_neg hWne, quotaOf]
  set W := totalWeight weights with hWdef
  set alloc := feeds.map (fun name => (name, capacity * weightOf weights name / W))
    with halloc
  have hsum : sumAlloc alloc = (feeds.map
      (fun name => capacity * weightOf weights name / W)).sum := by
    rw [halloc, sumAlloc_map_pairs]
  have hdle : capacity - sumAlloc alloc ≤ feeds.length := by
    have hb := floors_sum_lt_add_length feeds weights capacity hne hcons hW
    rw [← hWdef] at hb
    rw [hsum]
    omega
  rw [lookup_roundrobin feeds hnd alloc (capacity - sumAlloc alloc) hdle j hj]
  have hlook : alloc.lookup (feeds.get ⟨j, hj⟩)
      = some (capacity * weightOf weights (feeds.get ⟨j, hj⟩) / W) := by
    rw [halloc, lookup_map_pair, if_pos (List.get_mem feeds j hj)]
  rw [hlook, hsum]
  simp [Option.map_some]

/-- C4 amended, witness: the repository configuration at capacity 201; the
first source absorbs the single residual unit (61 = 60 + 1). -/
theorem c4_weighted_floor_plus_roundrobin_witness :
    (feedNames ≠ [] ∧ feedNames.Nodup ∧
      (feedNames.map (weightOf RSS_WEIGHTS)).sum = totalWeight RSS_WEIGHTS ∧
      0 < totalWeight RSS_WEIGHTS ∧ 0 < feedNames.length) ∧
    quotaOf (calculate_weighted_allocation feedNames RSS_WEIGHTS 201)
        (feedNames.get ⟨0, by decide⟩)
      = 201 * weightOf RSS_WEIGHTS (feedNames.get ⟨0, by decide⟩) / totalWeight RSS_WEIGHTS
        + (if 0 < 201 - (feedNames.map
              (fun name => 201 * weightOf RSS_WEIGHTS name / totalWeight RSS_WEIGHTS)).sum
           then 1 else 0) :=
  ⟨⟨by decide, by decide, by decide, by decide, by decide⟩,
   c4_weighted_floor_plus_roundrobin feedNames RSS_WEIGHTS 201
     (by decide) (by decide) (by decide) (by decide) 0 (by decide)⟩

theorem keys_map_pair_snd (l : List (String × β)) (f : String × β → γ) :
    ((l.map (fun p => (p.1, f p))).map Prod.fst) = l.map Prod.fst := by
  simp only [List.map_map]
  exact List.map_congr_left fun a _ => rfl

theorem lookup_countFold (l : List Entry) (acc : List (String × Nat)) (name : String) :
    (l.foldl (fun acc e =>
        if (acc.lookup e.blog_name).isSome then bumpAlloc e.blog_name acc else acc)
      acc).lookup name
    = (acc.lookup name).map (fun v => v + l.countP (fun e => e.blog_name == name)) := by
  induction l generalizing acc with
  | nil =>
      simp only [List.foldl_nil, List.countP_nil]
      cases h : acc.lookup name <;> simp
  | cons e t ih =>
      simp only [List.foldl_cons, List.countP_cons]
      by_cases hbn : e.blog_name = name
      · by_cases hs : (acc.lookup e.blog_name).isSome
        · rw [if_pos hs, ih, lookup_bumpAlloc, if_pos hbn.symm]
          cases h : acc.lookup name <;> simp [hbn] <;> omega
        · rw [if_neg hs, ih]
          have hnone : acc.lookup name = none := by
            cases h : acc.lookup name
            · rfl
            · rw [hbn, h] at hs
              simp at hs
          rw [hnone]
          simp
      · by_cases hs : (acc.lookup e.blog_name).isSome
        · rw [if_pos hs, ih, lookup_bumpAlloc, if_neg (fun h => hbn h.symm)]
          simp [hbn]
        · rw [if_neg hs, ih]
          simp [hbn]

theorem lookup_countByName (names : List String) (l : List Entry) (name : String)
    (hmem : name ∈ names) :
    (countByName names l).lookup name
      = some (l.countP (fun e => e.blog_name == name)) := by
  unfold countByName
  rw [lookup_countFold, lookup_map_pair, if_pos hmem]
  simp

theorem keys_countFold (l : List Entry) (acc : List (String × Nat)) :
    ((l.foldl (fun acc e =>
        if (acc.lookup e.blog_name).isSome then bumpAlloc e.blog_name acc else acc)
      acc).map Prod.fst) = acc.map Prod.fst := by
  induction l generalizing acc with
  | nil => rfl
  | cons e t ih =>
      simp only [List.foldl_cons]
      by_cases hs : (acc.lookup e.blog_name).isSome
      · rw [if_pos hs, ih, keys_bumpAlloc]
      · rw [if_neg hs, ih]

theorem keys_countByName (names : List String) (l : List Entry) :
    (countByName names l).map Prod.fst = names := by
  unfold countByName
  rw [keys_countFold, keys_map_pair]

theorem foldl_pick_mem (xs : List (String × ℚ)) (b : String × ℚ) :
    xs.foldl (fun b p => if b.2 < p.2 then p else b) b = b ∨
    xs.foldl (fun b p => if b.2 < p.2 then p else b) b ∈ xs := by
  induction xs generalizing b with
  | nil => exact Or.inl rfl
  | cons x t ih =>
      simp only [List.foldl_cons]
      rcases ih (if b.2 < x.2 then x else b) with h | h
      · rw [h]
        by_cases hc : b.2 < x.2
        · right
          rw [if_pos hc]
          exact List.mem_cons_self _ _
        · left
          rw [if_neg hc]
      · right
        exact List.mem_cons_of_mem _ h

theorem argmaxKey_mem (r : List (String × ℚ)) (hne : r ≠ []) :
    argmaxKey r ∈ r.map Prod.fst := by
  cases r with
  | nil => exact absurd rfl hne
  | cons x xs =>
      have hred : argmaxKey (x :: xs)
          = (xs.foldl (fun b p => if b.2 < p.2 then p else b) x).1 := rfl
      rw [hred]
      rcases foldl_pick_mem xs x with h | h
      · rw [h]
        exact List.mem_map_of_mem _ (List.mem_cons_self _ _)
      · exact List.mem_map_of_mem _ (List.mem_cons_of_mem _ h)

theorem lookup_dynLoopFuel (r : List (String × ℚ)) (a : List (String × Nat)) (n : Nat)
    (k : String) :
    (dynLoopFuel r a n).lookup k
      = (a.lookup k).map (fun v => v + if k = argmaxKey r then n else 0) := by
  induction n generalizing a with
  | zero =>
      cases h : a.lookup k <;> simp [dynLoopFuel, h]
  | succ m ih =>
      rw [show dynLoopFuel r a (m + 1) = dynLoopFuel r (bumpAlloc (argmaxKey r) a) m from rfl]
      rw [ih, lookup_bumpAlloc]
      by_cases hk : k = argmaxKey r
      · rw [if_pos hk]
        cases h : a.lookup k <;> simp [hk, h] <;> omega
      · rw [if_neg hk]
        simp [hk]

theorem sumAlloc_le_bumpAlloc (key : String) (a : List (String × Nat)) :
    sumAlloc a ≤ sumAlloc (bumpAlloc key a) := by
  induction a with
  | nil => exact Nat.le_refl _
  | cons p t ih =>
      show sumAlloc (p :: t) ≤ sumAlloc ((p :: t).map
        (fun q => if q.1 = key then (q.1, q.2 + 1) else q))
      rw [List.map_cons]
      by_cases hp : p.1 = key
      · rw [if_pos hp]
        simp only [sumAlloc, List.map_cons, List.sum_cons] at ih ⊢
        simp only [bumpAlloc] at ih
        omega
      · rw [if_neg hp]
        simp only [sumAlloc, List.map_cons, List.sum_cons] at ih ⊢
        simp only [bumpAlloc] at ih
        omega

theorem sumAlloc_bumpAlloc_ge (key : String) (a : List (String × Nat))
    (hk : key ∈ a.map Prod.fst) :
    sumAlloc a + 1 ≤ sumAlloc (bumpAlloc key a) := by
  induction a with
  | nil => simp at hk
  | cons p t ih =>
      simp only [List.map_cons, List.mem_cons] at hk
      show sumAlloc (p :: t) + 1 ≤ sumAlloc ((p :: t).map
        (fun q => if q.1 = key then (q.1, q.2 + 1) else q))
      rw [List.map_cons]
      by_cases hp : p.1 = key
      · rw [if_pos hp]
        have hmono := sumAlloc_le_bumpAlloc key t
        simp only [sumAlloc, List.map_cons, List.sum_cons] at hmono ⊢
        simp only [bumpAlloc] at hmono
        omega
      · have hkt : key ∈ t.map Prod.fst := by
          rcases hk with h | h
          · exact absurd h.symm hp
          · exact h
        rw [if_neg hp]
        have hrec := ih hkt
        simp only [sumAlloc, List.map_cons, List.sum_cons] at hrec ⊢
        simp only [bumpAlloc] at hrec
        omega

theorem sumAlloc_dynLoopFuel_ge (r : List (String × ℚ)) (a : List (String × Nat)) (n : Nat)
    (hk : argmaxKey r ∈ a.map Prod.fst) :
    sumAlloc a + n ≤ sumAlloc (dynLoopFuel r a n) := by
  induction n generalizing a with
  | zero => exact Nat.le_refl _
  | succ m ih =>
      rw [show dynLoopFuel r a (m + 1) = dynLoopFuel r (bumpAlloc (argmaxKey r) a) m from rfl]
      have h1 := sumAlloc_bumpAlloc_ge (argmaxKey r) a hk
      have h2 := ih (bumpAlloc (argmaxKey r) a) ((keys_bumpAlloc _ _).symm ▸ hk)
      omega

/-- C10: whenever the historical entries give a positive per-source count
total (the dynamic branch proper, not the empty-history fallback to equal),
the dynamic strategy assigns every configured source a quota of at least 1,
and the quotas sum to at least the capacity: the correction loop only raises
the total up to the capacity and never reduces a floor-induced overshoot. -/
theorem c10_dynamic_min_one_sum_ge_capacity (feeds : List String)
    (existing : List Entry) (capacity : Nat)
    (htotal : 0 < sumAlloc (countByName feeds existing)) :
    (∀ name ∈ feeds,
        1 ≤ quotaOf (calculate_dynamic_allocation feeds existing capacity) name) ∧
    capacity ≤ sumAlloc (calculate_dynamic_allocation feeds existing capacity) := by
  have hTne : ¬ sumAlloc (countByName feeds existing) = 0 := Nat.pos_iff_ne_zero.mp htotal
  have hfeedsne : feeds ≠ [] := by
    intro h
    subst h
    have hnil : countByName ([] : List String) existing = [] :=
      List.map_eq_nil_iff.mp (keys_countByName [] existing)
    rw [hnil] at htotal
    simp [sumAlloc] at htotal
  simp only [calculate_dynamic_allocation, if_neg hTne]
  set counts := countByName feeds existing with hcounts
  set total := sumAlloc counts with htotaldef
  set ratios := counts.map (fun p => (p.1, (p.2 : ℚ) / (total : ℚ))) with hratios
  set allocation := ratios.map (fun p => (p.1, max 1 (ratToNatFloor (p.2 * capacity))))
    with hallocation
  have hkeysr : ratios.map Prod.fst = feeds := by
    rw [hratios, keys_map_pair_snd, hcounts, keys_countByName]
  have hkeysa : allocation.map Prod.fst = feeds := by
    rw [hallocation, keys_map_pair_snd, hkeysr]
  have hrne : ratios ≠ [] := by
    intro h
    apply hfeedsne
    rw [← hkeysr, h]
    rfl
  have hargmem : argmaxKey ratios ∈ allocation.map Prod.fst := by
    rw [hkeysa, ← hkeysr]
    exact argmaxKey_mem ratios hrne
  constructor
  · intro name hname
    have hnamemem : name ∈ counts.map Prod.fst := by
      rw [hcounts, keys_countByName]
      exact hname
    obtain ⟨c, hc⟩ := lookup_mem_keys counts name hnamemem
    have hlr : ratios.lookup name = some ((c : ℚ) / (total : ℚ)) := by
      rw [hratios, lookup_map_pair_snd, hc]
      rfl
    have hla : allocation.lookup name
        = some (max 1 (ratToNatFloor ((c : ℚ) / (total : ℚ) * capacity))) := by
      rw [hallocation, lookup_map_pair_snd, hlr]
      rfl
    simp only [quotaOf]
    rw [lookup_dynLoopFuel, hla]
    simp only [Option.map_some', Option.getD_some]
    exact le_trans (le_max_left _ _) (Nat.le_add_right _ _)
  · have hsum := sumAlloc_dynLoopFuel_ge ratios allocation
      (capacity - sumAlloc allocation) hargmem
    omega

/-- C10 witness: one historical entry from 美团技术团队 at capacity 200;
quotas are (200, 1, 1, 1): every source gets at least one unit and the total
203 overshoots the capacity and is not trimmed. -/
theorem c10_dynamic_min_one_sum_ge_capacity_witness :
    0 < sumAlloc (countByName feedNames [sampleEntry "美团技术团队" "https://e/1" 5]) ∧
    ((∀ name ∈ feedNames, 1 ≤ quotaOf (calculate_dynamic_allocation feedNames
        [sampleEntry "美团技术团队" "https://e/1" 5] 200) name) ∧
      200 ≤ sumAlloc (calculate_dynamic_allocation feedNames
        [sampleEntry "美团技术团队" "https://e/1" 5] 200)) :=
  ⟨by decide, c10_dynamic_min_one_sum_ge_capacity feedNames
      [sampleEntry "美团技术团队" "https://e/1" 5] 200 (by decide)⟩

/-- C5 counterexample: with a single historical entry from 美团技术团队 and
capacity 200 the code allocates (200, 1, 1, 1) — a source with no history
gets the fixed minimum of one article, not 10% of the capacity — while the
claim's max(ratio, 0.1) floor with last-source residual gives
(200, 20, 20, 0); the claim is false as stated. -/
theorem c5_counterexample :
    calculate_dynamic_allocation feedNames
        [sampleEntry "美团技术团队" "https://e/1" 5] 200
      ≠ dynamicAllocationClaim feedNames
        [sampleEntry "美团技术团队" "https://e/1" 5] 200 := by
  have hcounts : countByName feedNames [sampleEntry "美团技术团队" "https://e/1" 5]
      = [("美团技术团队", 1), ("潮流周刊", 0), ("V2EX技术专区", 0), ("V2EX酷工作", 0)] := by
    decide
  have hTne : ¬ sumAlloc (countByName feedNames
      [sampleEntry "美团技术团队" "https://e/1" 5]) = 0 := by decide
  have h1 : quotaOf (calculate_dynamic_allocation feedNames
      [sampleEntry "美团技术团队" "https://e/1" 5] 200) "潮流周刊" = 1 := by
    simp only [calculate_dynamic_allocation, if_neg hTne, hcounts]
    norm_num [sumAlloc, quotaOf, List.lookup, ratToNatFloor, argmaxKey, dynLoopFuel]
    decide
  have h2 : quotaOf (dynamicAllocationClaim feedNames
      [sampleEntry "美团技术团队" "https://e/1" 5] 200) "潮流周刊" = 20 := by
    simp only [dynamicAllocationClaim, if_neg hTne, hcounts]
    norm_num [sumAlloc, quotaOf, List.lookup, ratToNatFloor]
    decide
  intro heq
  rw [heq, h2] at h1
  exact absurd h1 (by omega)

/-- C5 amended: in the dynamic branch (positive historical count total) each
source's base quota is `max(1, floor(count/total × capacity))` — a fixed
minimum of one article, not a 10%-of-capacity floor — and the single source
with the highest ratio (the first such in configuration order), not the last
source, absorbs the whole shortfall `capacity - Σ base` when it is
positive. -/
theorem c5_dynamic_base_and_argmax_absorbs (feeds : List String)
    (existing : List Entry) (capacity : Nat)
    (htotal : 0 < sumAlloc (countByName feeds existing))
    (name : String) (hmem : name ∈ feeds) :
    quotaOf (calculate_dynamic_allocation feeds existing capacity) name
      = max 1 (ratToNatFloor
          ((existing.countP (fun e => e.blog_name == name) : ℚ)
             / (sumAlloc (countByName feeds existing) : ℚ) * capacity))
        + (if name = argmaxKey ((countByName feeds existing).map
              (fun p => (p.1, (p.2 : ℚ) / (sumAlloc (countByName feeds existing) : ℚ))))
           then capacity - sumAlloc (((countByName feeds existing).map
              (fun p => (p.1, (p.2 : ℚ) / (sumAlloc (countByName feeds existing) : ℚ)))).map
              (fun p => (p.1, max 1 (ratToNatFloor (p.2 * capacity)))))
           else 0) := by
  have hTne : ¬ sumAlloc (countByName feeds existing) = 0 := Nat.pos_iff_ne_zero.mp htotal
  simp only [calculate_dynamic_allocation, if_neg hTne]
  set counts := countByName feeds existing with hcounts
  set total := sumAlloc counts with htotaldef
  set ratios := counts.map (fun p => (p.1, (p.2 : ℚ) / (total : ℚ))) with hratios
  set allocation := ratios.map (fun p => (p.1, max 1 (ratToNatFloor (p.2 * capacity))))
    with hallocation
  have hc : counts.lookup name
      = some (existing.countP (fun e => e.blog_name == name)) := by
    rw [hcounts]
    exact lookup_countByName feeds existing name hmem
  have hlr : ratios.lookup name
      = some ((existing.countP (fun e => e.blog_name == name) : ℚ) / (total : ℚ)) := by
    rw [hratios, lookup_map_pair_snd, hc]
    rfl
  have hla : allocation.lookup name
      = some (max 1 (ratToNatFloor
          ((existing.countP (fun e => e.blog_name == name) : ℚ)
            / (total : ℚ) * capacity))) := by
    rw [hallocation, lookup_map_pair_snd, hlr]
    rfl
  simp only [quotaOf]
  rw [lookup_dynLoopFuel, hla]
  simp only [Option.map_some', Option.getD_some]

/-- C5 amended, witness: one 美团技术团队 historical entry at capacity 200,
evaluated at source 潮流周刊: its quota is the minimum 1 (count 0, not the
argmax), far below the claimed 10% floor of 20. -/
theorem c5_dynamic_base_and_argmax_absorbs_witness :
    (0 < sumAlloc (countByName feedNames [sampleEntry "美团技术团队" "https://e/1" 5]) ∧
      "潮流周刊" ∈ feedNames) ∧
    quotaOf (calculate_dynamic_allocation feedNames
        [sampleEntry "美团技术团队" "https://e/1" 5] 200) "潮流周刊"
      = max 1 (ratToNatFloor
          (([sampleEntry "美团技术团队" "https://e/1" 5].countP
              (fun e => e.blog_name == "潮流周刊") : ℚ)
             / (sumAlloc (countByName feedNames
                  [sampleEntry "美团技术团队" "https://e/1" 5]) : ℚ) * 200))
        + (if "潮流周刊" = argmaxKey ((countByName feedNames
              [sampleEntry "美团技术团队" "https://e/1" 5]).map
              (fun p => (p.1, (p.2 : ℚ) / (sumAlloc (countByName feedNames
                  [sampleEntry "美团技术团队" "https://e/1" 5]) : ℚ))))
           then 200 - sumAlloc (((countByName feedNames
              [sampleEntry "美团技术团队" "https://e/1" 5]).map
              (fun p => (p.1, (p.2 : ℚ) / (sumAlloc (countByName feedNames
                  [sampleEntry "美团技术团队" "https://e/1" 5]) : ℚ)))).map
              (fun p => (p.1, max 1 (ratToNatFloor (p.2 * 200)))))
           else 0) :=
  ⟨⟨by decide, by decide⟩,
   c5_dynamic_base_and_argmax_absorbs feedNames
     [sampleEntry "美团技术团队" "https://e/1" 5] 200 (by decide) "潮流周刊" (by decide)⟩

theorem links_dictInsert (acc : List Entry) (e : Entry) :
    (dictInsert acc e).map Entry.link
      = if e.link ∈ acc.map Entry.link then acc.map Entry.link
        else acc.map Entry.link ++ [e.link] := by
  unfold dictInsert
  by_cases h : e.link ∈ acc.map Entry.link
  · have hany : (acc.any (fun x => x.link == e.link)) = true := by
      rw [List.any_eq_true]
      simp only [List.mem_map] at h
      obtain ⟨x, hx, hlx⟩ := h
      exact ⟨x, hx, by simp [hlx]⟩
    rw [if_pos (by simp [hany]), if_pos h, List.map_map]
    refine List.map_congr_left ?_
    intro x _
    by_cases hx : x.link = e.link
    · simp [hx]
    · simp [hx]
  · have hany : (acc.any (fun x => x.link == e.link)) = false := by
      rw [List.any_eq_false]
      intro x hx
      simp only [beq_iff_eq]
      exact fun hlx => h (hlx ▸ List.mem_map_of_mem Entry.link hx)
    rw [if_neg (by simp [hany]), if_neg h, List.map_append]
    simp

theorem nodupLinks_dictInsert (acc : List Entry) (e : Entry)
    (h : (acc.map Entry.link).Nodup) : ((dictInsert acc e).map Entry.link).Nodup := by
  rw [links_dictInsert]
  by_cases hm : e.link ∈ acc.map Entry.link
  · rw [if_pos hm]
    exact h
  · rw [if_neg hm]
    refine List.Nodup.append h (List.nodup_singleton _) ?_
    intro a ha hb
    rw [List.mem_singleton] at hb
    exact hm (hb ▸ ha)

theorem nodupLinks_foldl (l : List Entry) (acc : List Entry)
    (h : (acc.map Entry.link).Nodup) :
    ((l.foldl dictInsert acc).map Entry.link).Nodup := by
  induction l generalizing acc with
  | nil => exact h
  | cons e t ih => exact ih _ (nodupLinks_dictInsert acc e h)

theorem nodupLinks_combined (existing allNew : List Entry) :
    ((combinedEntries existing allNew).map Entry.link).Nodup := by
  unfold combinedEntries
  exact nodupLinks_foldl _ _ (nodupLinks_foldl _ _ (by simp))

theorem nodupLinks_finalEntries (existing allNew : List Entry) (capacity : Nat) :
    ((finalEntries existing allNew capacity).map Entry.link).Nodup := by
  unfold finalEntries
  have hperm : List.Perm
      ((List.insertionSort byRecency (combinedEntries existing allNew)).map Entry.link)
      ((combinedEntries existing allNew).map Entry.link) :=
    (List.perm_insertionSort byRecency _).map Entry.link
  have hnd : ((List.insertionSort byRecency
      (combinedEntries existing allNew)).map Entry.link).Nodup :=
    hperm.nodup_iff.mpr (nodupLinks_combined existing allNew)
  have hsub := (List.take_sublist capacity
      (List.insertionSort byRecency (combinedEntries existing allNew))).map Entry.link
  exact List.Nodup.sublist hsub hnd

theorem find?_replace_eq (acc : List Entry) (e : Entry) (k : String) (hk : e.link = k)
    (hany : (acc.any (fun x => x.link == e.link)) = true) :
    (acc.map (fun x => if x.link = e.link then e else x)).find? (fun x => x.link == k)
      = some e := by
  induction acc with
  | nil => simp at hany
  | cons a t ih =>
      rw [List.any_cons, Bool.or_eq_true] at hany
      rw [List.map_cons]
      by_cases ha : a.link = e.link
      · rw [if_pos ha]
        have hb : (e.link == k) = true := by simp [hk]
        simp [List.find?, hb]
      · rw [if_neg ha]
        have hak : ¬ a.link = k := fun h => ha (h.trans hk.symm)
        have hb : (a.link == k) = false := by simp [hak]
        simp only [List.find?, hb]
        apply ih
        rcases hany with h | h
        · exact absurd (by simpa using h) ha
        · exact h

theorem find?_replace_ne (acc : List Entry) (e : Entry) (k : String) (hk : ¬ e.link = k) :
    (acc.map (fun x => if x.link = e.link then e else x)).find? (fun x => x.link == k)
      = acc.find? (fun x => x.link == k) := by
  induction acc with
  | nil => rfl
  | cons a t ih =>
      rw [List.map_cons]
      by_cases ha : a.link = e.link
      · rw [if_pos ha]
        have h1 : (e.link == k) = false := by simp [hk]
        have h2cond : ¬ a.link = k := fun h => hk (ha.symm.trans h)
        have h2 : (a.link == k) = false := by simp [h2cond]
        simp only [List.find?, h1, h2]
        exact ih
      · rw [if_neg ha]
        cases hb : (a.link == k) with
        | true => simp [List.find?, hb]
        | false =>
            simp only [List.find?, hb]
            exact ih

theorem find?_dictInsert_eq (acc : List Entry) (e : Entry) (k : String)
    (hk : e.link = k) :
    (dictInsert acc e).find? (fun x => x.link == k) = some e := by
  unfold dictInsert
  by_cases hany : (acc.any (fun x => x.link == e.link)) = true
  · rw [if_pos (by simp [hany])]
    exact find?_replace_eq acc e k hk hany
  · rw [if_neg (by simp [hany]), List.find?_append]
    have hnone : acc.find? (fun x => x.link == k) = none := by
      rw [List.find?_eq_none]
      intro x hx
      simp only [beq_iff_eq]
      intro hxk
      exact hany (List.any_eq_true.mpr ⟨x, hx, by simp [hxk.trans hk.symm]⟩)
    rw [hnone]
    simp [List.find?, hk]

theorem find?_dictInsert_ne (acc : List Entry) (e : Entry) (k : String)
    (hk : ¬ e.link = k) :
    (dictInsert acc e).find? (fun x => x.link == k)
      = acc.find? (fun x => x.link == k) := by
  unfold dictInsert
  by_cases hany : (acc.any (fun x => x.link == e.link)) = true
  · rw [if_pos (by simp [hany])]
    exact find?_replace_ne acc e k hk
  · rw [if_neg (by simp [hany]), List.find?_append]
    have h1 : ([e].find? (fun x => x.link == k)) = none := by
      have hb : (e.link == k) = false := by simp [hk]
      simp [List.find?, hb]
    rw [h1]
    cases h : acc.find? (fun x => x.link == k) <;> simp

theorem find?_foldl_dictInsert (l : List Entry) (acc : List Entry) (k : String) :
    (l.foldl dictInsert acc).find? (fun x => x.link == k)
      = ((l.filter (fun x => x.link == k)).getLast?).or
          (acc.find? (fun x => x.link == k)) := by
  induction l generalizing acc with
  | nil => simp
  | cons e t ih =>
      rw [List.foldl_cons, ih]
      by_cases he : e.link = k
      · have hfe : (e :: t).filter (fun x => x.link == k)
            = e :: t.filter (fun x => x.link == k) :=
          List.filter_cons_of_pos (by simp [he])
        rw [hfe]
        cases hft : t.filter (fun x => x.link == k) with
        | nil =>
            rw [find?_dictInsert_eq acc e k he]
            simp
        | cons y ys =>
            obtain ⟨z, hz⟩ : ∃ z, (y :: ys).getLast? = some z :=
              ⟨(y :: ys).getLast (by simp), List.getLast?_eq_getLast _ _⟩
            rw [List.getLast?_cons_cons, hz]
            simp
      · have hfe : (e :: t).filter (fun x => x.link == k)
            = t.filter (fun x => x.link == k) :=
          List.filter_cons_of_neg (by simp [he])
        rw [hfe, find?_dictInsert_ne acc e k he]

/-- C2: in the merge output every link appears at most once, and the record
the merged dictionary stores for a fetched entry's link is the LAST fetched
record with that link, in its entirety — so whenever a fetched entry shares
a link with a historical entry, the fetched record wins wholesale; no field
of the historical record survives. -/
theorem c2_dedup_fetched_wins (existing allNew : List Entry) (capacity : Nat) :
    ((finalEntries existing allNew capacity).map Entry.link).Nodup ∧
    ∀ f ∈ allNew,
      findByLink (combinedEntries existing allNew) f.link
        = (allNew.filter (fun x => x.link == f.link)).getLast? := by
  refine ⟨nodupLinks_finalEntries existing allNew capacity, ?_⟩
  intro f hf
  unfold findByLink combinedEntries
  rw [find?_foldl_dictInsert]
  have hne : allNew.filter (fun x => x.link == f.link) ≠ [] := by
    intro h
    have hmem : f ∈ allNew.filter (fun x => x.link == f.link) := by
      rw [List.mem_filter]
      exact ⟨hf, by simp⟩
    rw [h] at hmem
    simp at hmem
  obtain ⟨z, hz⟩ : ∃ z, (allNew.filter (fun x => x.link == f.link)).getLast? = some z :=
    ⟨_, List.getLast?_eq_getLast _ hne⟩
  rw [hz]
  simp

/-- C2 witness: one historical and one fetched record share the link
`https://x`; the merge stores exactly the fetched record for it, and the
final list's links are duplicate-free. -/
theorem c2_dedup_fetched_wins_witness :
    (sampleEntry "new" "https://x" 9 ∈ [sampleEntry "new" "https://x" 9]) ∧
    ((finalEntries [sampleEntry "hist" "https://x" 1]
        [sampleEntry "new" "https://x" 9] 200).map Entry.link).Nodup ∧
    findByLink (combinedEntries [sampleEntry "hist" "https://x" 1]
        [sampleEntry "new" "https://x" 9]) (sampleEntry "new" "https://x" 9).link
      = ([sampleEntry "new" "https://x" 9].filter
          (fun x => x.link == (sampleEntry "new" "https://x" 9).link)).getLast? :=
  ⟨by decide,
   (c2_dedup_fetched_wins [sampleEntry "hist" "https://x" 1]
      [sampleEntry "new" "https://x" 9] 200).1,
   (c2_dedup_fetched_wins [sampleEntry "hist" "https://x" 1]
      [sampleEntry "new" "https://x" 9] 200).2
     (sampleEntry "new" "https://x" 9) (by decide)⟩

/-- C3 counterexample: an entry with the sentinel-epoch timestamp 0 sorts
BEFORE an entry with a negative (pre-epoch) timestamp, so sentinel entries
do not sort last; the output [ts 0, ts -1] violates the once-sentinel,
everything-after-is-sentinel reading of the claim. -/
theorem c3_counterexample :
    ¬ (finalEntries []
        [sampleEntry "x" "https://a" 0, sampleEntry "y" "https://b" (-1)] 200).Pairwise
        (fun a b => a.timestamp = 0 → b.timestamp = 0) := by
  decide

/-- C3 amended: the merge output is sorted in descending timestamp order and
truncated to the capacity after sorting (so 250 distinct-link entries at
capacity 200 leave the 200 greatest); every kept entry's timestamp is at
least every dropped entry's.  Sentinel-epoch (timestamp 0) entries sort
after all positive-timestamp entries but BEFORE entries with negative
(pre-epoch) timestamps, so they are not necessarily last. -/
theorem c3_sorted_truncated_greatest (existing allNew : List Entry) (capacity : Nat) :
    List.Sorted byRecency (finalEntries existing allNew capacity) ∧
    (finalEntries existing allNew capacity).length
      = min capacity (combinedEntries existing allNew).length ∧
    ∀ a ∈ finalEntries existing allNew capacity,
      ∀ b ∈ (List.insertionSort byRecency (combinedEntries existing allNew)).drop capacity,
        b.timestamp ≤ a.timestamp := by
  have hsorted := List.sorted_insertionSort byRecency (combinedEntries existing allNew)
  refine ⟨?_, ?_, ?_⟩
  · exact List.Pairwise.sublist (List.take_sublist _ _) hsorted
  · unfold finalEntries
    rw [List.length_take, (List.perm_insertionSort byRecency _).length_eq]
  · intro a ha b hb
    have hpw : List.Pairwise byRecency
        ((List.insertionSort byRecency (combinedEntries existing allNew)).take capacity
          ++ (List.insertionSort byRecency (combinedEntries existing allNew)).drop capacity) := by
      rw [List.take_append_drop]
      exact hsorted
    exact (List.pairwise_append.mp hpw).2.2 a ha b hb

theorem dictInsert_mem_self (S : List Entry) (e : Entry)
    (hnd : (S.map Entry.link).Nodup) (he : e ∈ S) : dictInsert S e = S := by
  unfold dictInsert
  have hany : (S.any (fun x => x.link == e.link)) = true :=
    List.any_eq_true.mpr ⟨e, he, by simp⟩
  rw [if_pos (by simp [hany])]
  conv_rhs => rw [← List.map_id S]
  refine List.map_congr_left ?_
  intro x hx
  by_cases hxe : x.link = e.link
  · have hpw : S.Pairwise (fun a b => a.link ≠ b.link) := by
      rw [List.Nodup, List.pairwise_map] at hnd
      exact hnd
    have hsym : Symmetric (fun a b : Entry => a.link ≠ b.link) := by
      intro a b h hc
      exact h hc.symm
    have hxeq : x = e := by
      by_contra hne
      exact List.Pairwise.forall hsym hpw hx he hne hxe
    simp [hxe, hxeq]
  · simp [hxe]

theorem foldl_dictInsert_append (S : List Entry) :
    ∀ acc : List Entry, ((acc ++ S).map Entry.link).Nodup →
      S.foldl dictInsert acc = acc ++ S := by
  induction S with
  | nil =>
      intro acc _
      simp
  | cons e t ih =>
      intro acc hnd
      rw [List.foldl_cons]
      have hmem : e.link ∉ acc.map Entry.link := by
        intro hin
        rw [List.map_append] at hnd
        have hdisj := (List.nodup_append.mp hnd).2.2
        exact hdisj hin (by simp)
      have hstep : dictInsert acc e = acc ++ [e] := by
        unfold dictInsert
        rw [if_neg ?_]
        intro hany
        rw [List.any_eq_true] at hany
        obtain ⟨x, hx, hlx⟩ := hany
        rw [beq_iff_eq] at hlx
        exact hmem (hlx ▸ List.mem_map_of_mem Entry.link hx)
      rw [hstep, ih (acc ++ [e]) (by simpa using hnd)]
      simp

theorem foldl_dictInsert_self (S : List Entry) (hnd : (S.map Entry.link).Nodup) :
    ∀ l : List Entry, (∀ e ∈ l, e ∈ S) → l.foldl dictInsert S = S := by
  intro l
  induction l with
  | nil =>
      intro _
      rfl
  | cons e t ih =>
      intro hsub
      rw [List.foldl_cons, dictInsert_mem_self S e hnd (hsub e (List.mem_cons_self _ _))]
      exact ih (fun x hx => hsub x (List.mem_cons_of_mem _ hx))

/-- C6 counterexample: merging the two-element list [ts 3, ts 9] with itself
(capacity 200) returns [ts 9, ts 3] — the merge re-sorts, so a list that is
not already in descending timestamp order comes back in a different order;
merge is not idempotent for every entry list and capacity. -/
theorem c6_counterexample :
    finalEntries [sampleEntry "a" "https://a" 3, sampleEntry "b" "https://b" 9]
        [sampleEntry "a" "https://a" 3, sampleEntry "b" "https://b" 9] 200
      ≠ [sampleEntry "a" "https://a" 3, sampleEntry "b" "https://b" 9] := by
  decide

/-- C6 amended: merge is idempotent exactly on canonical inputs: if `S` has
duplicate-free links, is already sorted in descending timestamp order, and
fits in the capacity, then merging `S` with itself returns `S` — same set,
same order, same length.  (An unsorted `S`, duplicate links, or a capacity
below `S`'s length each break the claim as stated.) -/
theorem c6_merge_idempotent_on_canonical (S : List Entry) (capacity : Nat)
    (hnd : (S.map Entry.link).Nodup) (hsorted : List.Sorted byRecency S)
    (hcap : S.length ≤ capacity) :
    finalEntries S S capacity = S := by
  unfold finalEntries combinedEntries
  have h1 : S.foldl dictInsert [] = S := by
    have h := foldl_dictInsert_append S [] (by simpa using hnd)
    simpa using h
  rw [h1, foldl_dictInsert_self S hnd S (fun _ h => h)]
  rw [List.Sorted.insertionSort_eq hsorted]
  exact List.take_of_length_le hcap

/-- C6 amended, witness: a two-element descending, link-distinct list at
capacity 2 merges with itself to itself. -/
theorem c6_merge_idempotent_on_canonical_witness :
    ((([sampleEntry "a" "https://a" 9, sampleEntry "b" "https://b" 3].map
        Entry.link).Nodup) ∧
      List.Sorted byRecency
        [sampleEntry "a" "https://a" 9, sampleEntry "b" "https://b" 3] ∧
      [sampleEntry "a" "https://a" 9, sampleEntry "b" "https://b" 3].length ≤ 2) ∧
    finalEntries [sampleEntry "a" "https://a" 9, sampleEntry "b" "https://b" 3]
        [sampleEntry "a" "https://a" 9, sampleEntry "b" "https://b" 3] 2
      = [sampleEntry "a" "https://a" 9, sampleEntry "b" "https://b" 3] :=
  ⟨⟨by decide, by decide, by decide⟩,
   c6_merge_idempotent_on_canonical
     [sampleEntry "a" "https://a" 9, sampleEntry "b" "https://b" 3] 2
     (by decide) (by decide) (by decide)⟩

set_option maxRecDepth 4000 in
/-- C7 counterexample: for a source with `sanitize_summary` enabled the code
keeps the sanitised HTML with no length bound (lines 209-210 have no
truncation); with the sanitiser behaving as `bleach.clean` does on plain
tag-free ASCII text (identity), a 201-character summary comes through with
201 characters; the claim is false for such source configurations. -/
theorem c7_counterexample :
    ¬ (summaryOf (fun s => s) true (String.mk (List.replicate 201 'a'))).length ≤ 200 := by
  decide

/-- C7 amended: for sources with `sanitize_summary` disabled the produced
summary is tag-stripped, trimmed and truncated to at most 200 characters;
sources with `sanitize_summary` enabled keep the full sanitised HTML with no
length bound. -/
theorem c7_summary_bounded_without_sanitize (sanitizeHtml : String → String)
    (summary_html : String) :
    (summaryOf sanitizeHtml false summary_html).length ≤ 200 := by
  simp only [summaryOf, Bool.false_eq_true, if_false]
  show (String.mk ((pyStrip (stripTags summary_html.data)).take 200)).length ≤ 200
  simp [String.length]

theorem foldl_append_extend (l : List (List Char)) :
    ∀ acc : List Char, ∃ rest, acc ++ rest = l.foldl (fun f c => f ++ c) acc := by
  induction l with
  | nil =>
      intro acc
      exact ⟨[], by simp⟩
  | cons c t ih =>
      intro acc
      obtain ⟨r, hr⟩ := ih (acc ++ c)
      exact ⟨c ++ r, by rw [List.foldl_cons, ← hr, List.append_assoc]⟩

theorem foldl_append_take_prefix (l : List (List Char)) :
    ∀ (k : Nat) (acc : List Char), ∃ rest,
      ((l.take k).foldl (fun f c => f ++ c) acc) ++ rest
        = l.foldl (fun f c => f ++ c) acc := by
  induction l with
  | nil =>
      intro k acc
      exact ⟨[], by simp⟩
  | cons c t ih =>
      intro k acc
      cases k with
      | zero => simpa using foldl_append_extend (c :: t) acc
      | succ m =>
          rw [List.take_succ_cons, List.foldl_cons, List.foldl_cons]
          exact ih m (acc ++ c)

/-- C9 counterexample: the write opens the target with mode "w", truncating
it, before streaming the payload; failing after one of three chunks leaves
a two-character fragment of the NEW payload — the prior valid snapshot is
destroyed, so the write does partially overwrite the existing valid file. -/
theorem c9_counterexample :
    ((writeSnapshot ("old-snapshot".data) ["ne".data, "w-pay".data, "load".data]
        (some 1)).1 ≠ "old-snapshot".data) ∧
    (writeSnapshot ("old-snapshot".data) ["ne".data, "w-pay".data, "load".data]
        (some 1)).2 = false := by
  decide

/-- C9 amended: a write failure is reported (success flag false) and the run
ends, but because the open truncates the file before any data is written,
the file is left holding a PREFIX of the NEW payload (the chunks written
before the failure) — not the prior snapshot; only a completed write yields
the full payload (flag true). -/
theorem c9_truncate_then_stream (oldFile : List Char) (chunks : List (List Char))
    (k : Nat) :
    (writeSnapshot oldFile chunks (some k)).2 = false ∧
    (writeSnapshot oldFile chunks none).2 = true ∧
    ∃ rest, (writeSnapshot oldFile chunks (some k)).1 ++ rest
      = (writeSnapshot oldFile chunks none).1 :=
  ⟨rfl, rfl, foldl_append_take_prefix chunks k []⟩

theorem lookup_mapUpdate (key : String) (g : β → β) (l : List (String × β)) (k : String) :
    (l.map (fun p => if p.1 = key then (p.1, g p.2) else p)).lookup k
      = if k = key then (l.lookup k).map g else l.lookup k := by
  induction l with
  | nil => simp
  | cons p t ih =>
      rw [List.map_cons]
      by_cases hk : k = p.1
      · have hb : (k == p.1) = true := by simp [hk]
        by_cases hp : p.1 = key
        · have hkey : k = key := hk.trans hp
          rw [if_pos hp, if_pos hkey]
          simp only [List.lookup, hb]
          simp
        · have hknotkey : ¬ k = key := fun h => hp (hk.symm.trans h)
          rw [if_neg hp, if_neg hknotkey]
          simp only [List.lookup, hb]
      · have hb : (k == p.1) = false := by simp [hk]
        by_cases hp : p.1 = key
        · rw [if_pos hp]
          simp only [List.lookup, hb]
          exact ih
        · rw [if_neg hp]
          simp only [List.lookup, hb]
          exact ih

theorem keys_addSourceMeta (f : FeedConfig) (count : Nat)
    (meta : List (String × CategoryMeta)) :
    (addSourceMeta f count meta).map Prod.fst = meta.map Prod.fst := by
  unfold addSourceMeta
  rw [List.map_map]
  refine List.map_congr_left ?_
  intro p _
  by_cases h : p.1 = f.category <;> simp [h]

theorem lookup_addSourceMeta (f : FeedConfig) (count : Nat)
    (meta : List (String × CategoryMeta)) (k : String) :
    (addSourceMeta f count meta).lookup k
      = if k = f.category then
          (meta.lookup k).map (fun m =>
            ⟨m.icon, m.color, m.count + count,
             m.sources ++ [(f.name, ⟨f.icon, f.color, f.description, count⟩)]⟩)
        else meta.lookup k := by
  unfold addSourceMeta
  exact lookup_mapUpdate f.category
    (fun m => ⟨m.icon, m.color, m.count + count,
      m.sources ++ [(f.name, ⟨f.icon, f.color, f.description, count⟩)]⟩) meta k

theorem lookup_catMetaFold (c : String) (sc : List (String × Nat))
    (fl : List FeedConfig) :
    ∀ (meta : List (String × CategoryMeta)) (m : CategoryMeta),
      meta.lookup c = some m →
      ((fl.foldl (fun meta f => addSourceMeta f (quotaOf sc f.name) meta) meta).lookup c)
        = some ⟨m.icon, m.color,
            m.count + ((fl.filter (fun f => f.category = c)).map
              (fun f => quotaOf sc f.name)).sum,
            m.sources ++ (fl.filter (fun f => f.category = c)).map
              (fun f => (f.name, ⟨f.icon, f.color, f.description, quotaOf sc f.name⟩))⟩ := by
  induction fl with
  | nil =>
      intro meta m hm
      simpa using hm
  | cons f t ih =>
      intro meta m hm
      rw [List.foldl_cons]
      by_cases hc : f.category = c
      · have hm2 : (addSourceMeta f (quotaOf sc f.name) meta).lookup c
            = some ⟨m.icon, m.color, m.count + quotaOf sc f.name,
                m.sources ++ [(f.name, ⟨f.icon, f.color, f.description,
                  quotaOf sc f.name⟩)]⟩ := by
          rw [lookup_addSourceMeta, if_pos hc.symm, hm]
          rfl
        rw [ih _ _ hm2, List.filter_cons_of_pos (by simp [hc])]
        simp only [List.map_cons, List.sum_cons]
        rw [Nat.add_assoc, List.append_assoc]
        rfl
      · have hm2 : (addSourceMeta f (quotaOf sc f.name) meta).lookup c = some m := by
          rw [lookup_addSourceMeta, if_neg (fun h => hc h.symm), hm]
        rw [ih _ _ hm2, List.filter_cons_of_neg (by simp [hc])]

theorem lookup_initCategoriesMeta (cats : List CategoryConfig) (c : CategoryConfig)
    (hmem : c ∈ cats) (hnd : (cats.map (fun x => x.name)).Nodup) :
    (initCategoriesMeta cats).lookup c.name = some ⟨c.icon, c.color, 0, []⟩ := by
  induction cats with
  | nil => simp at hmem
  | cons a t ih =>
      rw [List.mem_cons] at hmem
      rw [List.map_cons, List.nodup_cons] at hnd
      show ((a.name, (⟨a.icon, a.color, 0, []⟩ : CategoryMeta))
          :: initCategoriesMeta t).lookup c.name = _
      by_cases hca : c.name = a.name
      · have hceq : c = a := by
          rcases hmem with h | h
          · exact h
          · exact absurd (hca ▸ List.mem_map_of_mem (fun x => x.name) h) hnd.1
        have hb : (c.name == a.name) = true := by simp [hca]
        simp [List.lookup, hb, hceq]
      · have hb : (c.name == a.name) = false := by simp [hca]
        simp only [List.lookup, hb]
        apply ih
        · rcases hmem with h | h
          · exact absurd (congrArg (fun x => x.name) h) hca
          · exact h
        · exact hnd.2

/-- C8 counterexample: with an empty final entry list the category 技术
appears with count 0 as the claim says, but its source map is NOT empty: it
lists the category's two configured sources (each with count 0); the
claim's "empty source map" is false. -/
theorem c8_counterexample :
    ((categoriesMeta CATEGORIES RSS_FEEDS []).lookup "技术").map (fun m => m.count)
        = some 0 ∧
    ¬ ((categoriesMeta CATEGORIES RSS_FEEDS []).lookup "技术").map (fun m => m.sources)
        = some [] := by
  decide

/-- C8 amended: the metadata initialises one record per configured category
regardless of the entry list (the output keys are exactly the configured
category names, in order); a category with zero matching entries still
appears with count 0, but its source map lists each of its configured
sources with count 0 — it is empty only if the category has no configured
sources. -/
theorem c8_zero_category_present (cats : List CategoryConfig) (feeds : List FeedConfig)
    (entries : List Entry) (c : CategoryConfig) :
    ((categoriesMeta cats feeds entries).map Prod.fst = cats.map (fun x => x.name)) ∧
    (c ∈ cats → (cats.map (fun x => x.name)).Nodup →
      (∀ e ∈ entries, ∀ f ∈ feeds, f.category = c.name → e.blog_name ≠ f.name) →
      ∃ m, (categoriesMeta cats feeds entries).lookup c.name = some m ∧
        m.count = 0 ∧ (∀ p ∈ m.sources, p.2.count = 0) ∧
        m.sources.map Prod.fst
          = (feeds.filter (fun f => f.category = c.name)).map (fun x => x.name)) := by
  constructor
  · unfold categoriesMeta
    have hkeys : ∀ (fl : List FeedConfig) (meta : List (String × CategoryMeta)),
        ((fl.foldl (fun meta f => addSourceMeta f
            (quotaOf (countByName (feeds.map (fun x => x.name)) entries) f.name) meta)
          meta).map Prod.fst) = meta.map Prod.fst := by
      intro fl
      induction fl with
      | nil =>
          intro meta
          rfl
      | cons f t ih =>
          intro meta
          rw [List.foldl_cons, ih, keys_addSourceMeta]
    rw [hkeys]
    unfold initCategoriesMeta
    rw [List.map_map]
    exact List.map_congr_left fun a _ => rfl
  · intro hmem hnd hzero
    have hinit := lookup_initCategoriesMeta cats c hmem hnd
    unfold categoriesMeta
    have hfold := lookup_catMetaFold c.name
      (countByName (feeds.map (fun x => x.name)) entries)
      feeds (initCategoriesMeta cats) ⟨c.icon, c.color, 0, []⟩ hinit
    have hzq : ∀ f ∈ feeds.filter (fun f => f.category = c.name),
        quotaOf (countByName (feeds.map (fun x => x.name)) entries) f.name = 0 := by
      intro f hf
      rw [List.mem_filter] at hf
      have hfname : f.name ∈ feeds.map (fun x => x.name) :=
        List.mem_map_of_mem _ hf.1
      have hcl := lookup_countByName (feeds.map (fun x => x.name)) entries f.name hfname
      rw [quotaOf, hcl]
      simp only [Option.getD_some]
      rw [List.countP_eq_zero]
      intro e he
      simp only [beq_iff_eq]
      exact hzero e he f hf.1 (by simpa using hf.2)
    refine ⟨_, hfold, ?_, ?_, ?_⟩
    · show 0 + ((feeds.filter (fun f => f.category = c.name)).map
          (fun f => quotaOf (countByName (feeds.map (fun x => x.name)) entries) f.name)).sum
        = 0
      rw [Nat.zero_add]
      apply List.sum_eq_zero
      intro x hx
      rw [List.mem_map] at hx
      obtain ⟨f, hf, rfl⟩ := hx
      exact hzq f hf
    · intro p hp
      have hp2 : p ∈ (feeds.filter (fun f => f.category = c.name)).map
          (fun (f : FeedConfig) => ((f.name, ⟨f.icon, f.color, f.description,
            quotaOf (countByName (feeds.map (fun x => x.name)) entries) f.name⟩)
              : String × SourceMeta)) := by
        simpa using hp
      rw [List.mem_map] at hp2
      obtain ⟨f, hf, rfl⟩ := hp2
      exact hzq f hf
    · show ([] ++ (feeds.filter (fun (f : FeedConfig) => f.category = c.name)).map
          (fun (f : FeedConfig) => ((f.name, ⟨f.icon, f.color, f.description,
            quotaOf (countByName (feeds.map (fun (x : FeedConfig) => x.name)) entries)
              f.name⟩) : String × SourceMeta))).map Prod.fst
        = (feeds.filter (fun (f : FeedConfig) => f.category = c.name)).map
            (fun (x : FeedConfig) => x.name)
      rw [List.nil_append, List.map_map]
      exact List.map_congr_left fun f _ => rfl

/-- C8 amended, witness: the repository configuration with an empty entry
list at category 技术: the category is present, its count is 0, and its
source map lists its two configured sources with count 0. -/
theorem c8_zero_category_present_witness :
    ((⟨"技术", "💻", "#4A90E2"⟩ : CategoryConfig) ∈ CATEGORIES ∧
      (CATEGORIES.map (fun x => x.name)).Nodup ∧
      (∀ e ∈ ([] : List Entry), ∀ f ∈ RSS_FEEDS,
        f.category = "技术" → e.blog_name ≠ f.name)) ∧
    ((categoriesMeta CATEGORIES RSS_FEEDS []).map Prod.fst
        = CATEGORIES.map (fun x => x.name)) ∧
    ∃ m, (categoriesMeta CATEGORIES RSS_FEEDS []).lookup "技术" = some m ∧
      m.count = 0 ∧ (∀ p ∈ m.sources, p.2.count = 0) ∧
      m.sources.map Prod.fst
        = (RSS_FEEDS.filter (fun f => f.category = "技术")).map (fun x => x.name) :=
  ⟨⟨by decide, by decide, by simp⟩,
   (c8_zero_category_present CATEGORIES RSS_FEEDS [] ⟨"技术", "💻", "#4A90E2"⟩).1,
   (c8_zero_category_present CATEGORIES RSS_FEEDS [] ⟨"技术", "💻", "#4A90E2"⟩).2
     (by decide) (by decide) (by simp)⟩

end RssFetch
